import Mathlib

/-! Verification of the incremental highlighter of ide_app1
(languageSupport/syntax.py): token-class style resolution
(_get_format_for_token), the whole-document tokenization cache of
UniversalHighlighter (_tokenize_document, highlightBlock) and the
language-selection tables (get_language_name,
create_highlighter_by_name).  Text is modelled as a list of characters,
the external pygments lexer as an oracle producing a finite stream of
classified values that may raise after the yielded ones, and Python
dictionaries as association lists with insertion-order append. -/

/-- Python strings, as lists of characters. -/
abbrev PyStr := List Char

/-- A pygments token type: the path of the node in the token taxonomy.
Token.Keyword.Type is ["Keyword", "Type"]; the root Token is []. -/
abbrev TokenType := List String

/-- The observable fields of the QTextCharFormat built by _create_format:
foreground color, bold weight, italic flag. -/
structure CharFormat where
  color : String
  bold : Bool
  italic : Bool
deriving DecidableEq, Repr

/-- _create_format(color, bold, italic): build a display format. -/
def _create_format (color : String) (bold : Bool) (italic : Bool) : CharFormat :=
  ⟨color, bold, italic⟩

/-- Python dictionary lookup over an association list (first match). -/
def alookup {α β : Type} [DecidableEq α] : List (α × β) → α → Option β
  | [], _ => none
  | e :: rest, k => if e.1 = k then some e.2 else alookup rest k

/-- The TOKEN_COLORS dictionary of syntax.py: token class to
(color, bold, italic). -/
def TOKEN_COLORS : List (TokenType × String × Bool × Bool) :=
  [(["Keyword"], ("#569cd6", true, false)),
   (["Keyword", "Type"], ("#4ec9b0", false, false)),
   (["Name"], ("#d4d4d4", false, false)),
   (["Name", "Function"], ("#dcdcaa", false, false)),
   (["Name", "Class"], ("#4ec9b0", false, false)),
   (["Name", "Builtin"], ("#4ec9b0", false, false)),
   (["String"], ("#ce9178", false, false)),
   (["String", "Doc"], ("#6a9955", false, true)),
   (["Number"], ("#b5cea8", false, false)),
   (["Comment"], ("#6a9955", false, true)),
   (["Comment", "Multiline"], ("#6a9955", false, true)),
   (["Operator"], ("#d4d4d4", false, false)),
   (["Punctuation"], ("#d4d4d4", false, false)),
   (["Text"], ("#d4d4d4", false, false)),
   (["Error"], ("#f44747", false, false))]

/-- token_type.parent in the pygments taxonomy: the root has no parent,
any other node drops the last path component. -/
def tokenParent : TokenType → Option TokenType
  | [] => none
  | tt => some tt.dropLast

/-- The while loop of _get_format_for_token: walk the parent chain until
a class with a rule is found; the root walks off to None and the default
format is returned. -/
def _format_walk (p : Option TokenType) : CharFormat :=
  match p with
  | none => _create_format ("#d4d4d4") false false
  | some q =>
    match alookup TOKEN_COLORS q with
    | some (c, b, i) => _create_format c b i
    | none => _format_walk (tokenParent q)
termination_by match p with | none => 0 | some q => q.length + 1
decreasing_by
  cases q with
  | nil => simp [tokenParent]
  | cons a l => simp [tokenParent, List.length_dropLast]

/-- _get_format_for_token: exact TOKEN_COLORS entry if present, else the
parent-chain walk. -/
def _get_format_for_token (tt : TokenType) : CharFormat :=
  match alookup TOKEN_COLORS tt with
  | some (c, b, i) => _create_format c b i
  | none => _format_walk (tokenParent tt)

/-- The proper ancestors of a token class, nearest first, ending with
the root []. -/
def ancestorChain (tt : TokenType) : List TokenType :=
  match tt with
  | [] => []
  | a :: l => (a :: l).dropLast :: ancestorChain ((a :: l).dropLast)
termination_by tt.length
decreasing_by simp [List.length_dropLast]

/-- Style rule of the nearest ancestor class that has one (spec wording
of style resolution). -/
def nearestRuledAncestor (tt : TokenType) : Option (String × Bool × Bool) :=
  (ancestorChain tt).findSome? (fun p => alookup TOKEN_COLORS p)

/-- Style resolution as the spec words it: exact class match, else the
nearest ancestor with a rule, else the default style. -/
def styleResolutionSpec (tt : TokenType) : CharFormat :=
  match alookup TOKEN_COLORS tt with
  | some (c, b, i) => _create_format c b i
  | none =>
    match nearestRuledAncestor tt with
    | some (c, b, i) => _create_format c b i
    | none => _create_format ("#d4d4d4") false false

/-- Helper for token_value.split: first line part and the remaining
parts after each newline. -/
def splitNlCore : PyStr → PyStr × List PyStr
  | [] => ([], [])
  | c :: cs =>
    let r := splitNlCore cs
    if c = '\n' then ([], r.1 :: r.2) else (c :: r.1, r.2)

/-- Python token_value.split with separator newline: always at least one
(possibly empty) part. -/
def splitNl (s : PyStr) : List PyStr :=
  (splitNlCore s).1 :: (splitNlCore s).2

/-- Number of newline characters in a string. -/
def countNl (s : PyStr) : Nat :=
  s.countP (fun c => decide (c = '\n'))

/-- Total length of a list of string parts. -/
def partsLen (l : List PyStr) : Nat :=
  (l.map List.length).sum

/-- Number of lines of a document, as Qt numbers text blocks: one more
than the number of newline characters. -/
def lineCount (s : PyStr) : Nat :=
  (splitNl s).length

/-- What iterating pygments lex(text, lexer) observably does: a finite
stream of (token class, value) pairs, after which the generator either
finishes normally or raises (fails = true). -/
structure LexStream where
  tokens : List (TokenType × PyStr)
  fails : Bool

/-- A lexer: from the full document text to its token stream. -/
abbrev Lexer := PyStr → LexStream

/-- One stored entry of _block_tokens: (column, length, token class). -/
abbrev TokSpan := Nat × Nat × TokenType

/-- The _block_tokens dictionary: line number to its ordered spans,
insertion ordered. -/
abbrev TokenIndex := List (Nat × List TokSpan)

/-- self._block_tokens.setdefault(line, []).append(sp). -/
def indexAppend : TokenIndex → Nat → TokSpan → TokenIndex
  | [], line, sp => [(line, [sp])]
  | e :: rest, line, sp =>
    if e.1 = line then (e.1, e.2 ++ [sp]) :: rest
    else e :: indexAppend rest line sp

/-- self._block_tokens.get(line, []). -/
def indexGet : TokenIndex → Nat → List TokSpan
  | [], _ => []
  | e :: rest, line => if e.1 = line then e.2 else indexGet rest line

/-- The filter of _tokenize_document: token_type not in
(Token.Text, Token.Whitespace), by exact path equality. -/
def isTextOrWs (tt : TokenType) : Bool :=
  decide (tt = ["Text"] ∨ tt = ["Whitespace"])

/-- A line part is stored when it is non-empty and its class is not
filtered out. -/
def storable (tt : TokenType) (part : PyStr) : Bool :=
  !part.isEmpty && !isTextOrWs tt

/-- The scan cursor of _tokenize_document: current_line, current_col and
the index built so far. -/
structure ScanSt where
  line : Nat
  col : Nat
  idx : TokenIndex
deriving DecidableEq, Repr

/-- One line part of a token value: advance to the next line for every
part after the first, store the part when storable, move the column past
it. -/
def stepPart (tt : TokenType) (advance : Bool) (part : PyStr) (s : ScanSt) : ScanSt :=
  let line := if advance then s.line + 1 else s.line
  let col := if advance then 0 else s.col
  let idx :=
    if storable tt part then indexAppend s.idx line (col, part.length, tt)
    else s.idx
  ⟨line, col + part.length, idx⟩

/-- One yielded token of the lex stream: its value is split at newlines
and each part processed in order (the first on the current line, the
rest each on a fresh line). -/
def stepToken (s : ScanSt) (t : TokenType × PyStr) : ScanSt :=
  (splitNlCore t.2).2.foldl (fun a q => stepPart t.1 true q a)
    (stepPart t.1 false (splitNlCore t.2).1 s)

/-- The whole token loop of _tokenize_document, from a fresh cursor. -/
def scanTokens (ts : List (TokenType × PyStr)) : ScanSt :=
  ts.foldl stepToken ⟨0, 0, []⟩

/-- A Python exception escaping a call. -/
inductive PyExc
  | exc
deriving DecidableEq, Repr

/-- The mutable state of a UniversalHighlighter instance. -/
structure HLState where
  blockTokens : TokenIndex
  lastTextHash : Option Int
  formatCache : List (TokenType × CharFormat)
deriving DecidableEq

/-- A freshly constructed highlighter: empty index, no recorded hash,
empty format cache. -/
def initState : HLState :=
  ⟨[], none, []⟩

/-- Whether iterating the lex stream raises after its yielded tokens. -/
def lexLoopOutcome (stream : LexStream) : Option PyExc :=
  if stream.fails then some PyExc.exc else none

/-- The try block of _tokenize_document: the loop consumes every yielded
token (the state mutations below persist), and reports the exception the
stream raises after them, if any. -/
def tokenizeBody (stream : LexStream) (st : HLState) (h : Int) :
    HLState × Option PyExc :=
  ({ st with blockTokens := (scanTokens stream.tokens).idx, lastTextHash := some h },
   lexLoopOutcome stream)

/-- _tokenize_document: return early when the text hash equals the
recorded one; otherwise record the hash, reset the index and run the
guarded token loop.  The except clause swallows any raised exception
(pass), so the second component, the exception escaping the call, is
always none and the partially built index stays in place. -/
def _tokenize_document (pyHash : PyStr → Int) (lexer : Lexer) (text : PyStr)
    (st : HLState) : HLState × Option PyExc :=
  if some (pyHash text) = st.lastTextHash then (st, none)
  else
    let body := tokenizeBody (lexer text) st (pyHash text)
    (body.1, none)

/-- get_format: the per-instance memoization of _get_format_for_token
over the _format_cache dictionary. -/
def get_format (cache : List (TokenType × CharFormat)) (tt : TokenType) :
    CharFormat × List (TokenType × CharFormat) :=
  match alookup cache tt with
  | some f => (f, cache)
  | none => (_get_format_for_token tt, cache ++ [(tt, _get_format_for_token tt)])

/-- The setFormat loop of highlightBlock: resolve every span class
through the format cache, in order. -/
def formatLine (cache : List (TokenType × CharFormat)) (sps : List TokSpan) :
    List (Nat × Nat × CharFormat) × List (TokenType × CharFormat) :=
  sps.foldl
    (fun acc sp =>
      let r := get_format acc.2 sp.2.2
      (acc.1 ++ [(sp.1, sp.2.1, r.1)], r.2))
    ([], cache)

/-- highlightBlock for the block numbered blockNum: rebuild if needed,
look the line up in _block_tokens (absent lines give []), format every
span.  Returns the new instance state, the formatted spans, and the
exception escaping the call. -/
def highlightBlock (pyHash : PyStr → Int) (lexer : Lexer) (text : PyStr)
    (blockNum : Nat) (st : HLState) :
    HLState × List (Nat × Nat × CharFormat) × Option PyExc :=
  let r := _tokenize_document pyHash lexer text st
  let sps := indexGet r.1.blockTokens blockNum
  let f := formatLine r.1.formatCache sps
  ({ r.1 with formatCache := f.2 }, f.1, r.2)

/-- The per-line token query feeding the highlightBlock loop:
self._block_tokens.get(block_num, []). -/
def lineTokens (st : HLState) (n : Nat) : List TokSpan :=
  indexGet st.blockTokens n

/-- The beginning of requestLineFormatting for a configured document, as
window.py wires it: when create_highlighter_by_name returned no
highlighter, none is installed on the document and the renderer applies
no spans (default styling); otherwise the installed highlighter runs
highlightBlock. -/
def requestLineFormatting (pyHash : PyStr → Int) (hl : Option Lexer) (text : PyStr)
    (n : Nat) (st : HLState) :
    HLState × List (Nat × Nat × CharFormat) × Option PyExc :=
  match hl with
  | none => (st, [], none)
  | some lexer => highlightBlock pyHash lexer text n st

/-- The DISPLAY_NAME_TO_ALIAS dictionary of syntax.py. -/
def DISPLAY_NAME_TO_ALIAS : List (String × String) :=
  [("C Header", "c"),
   ("C++ Header", "cpp"),
   ("JavaScript (JSX)", "jsx"),
   ("TypeScript (TSX)", "tsx"),
   ("Git Ignore", "gitignore"),
   ("QSS", "css")]

/-- The LANGUAGE_NAMES dictionary of syntax.py: file extension to
display name. -/
def LANGUAGE_NAMES : List (String × String) :=
  [(".py", "Python"),
   (".js", "JavaScript"),
   (".html", "HTML"),
   (".css", "CSS"),
   (".json", "JSON"),
   (".md", "Markdown"),
   (".c", "C"),
   (".cpp", "C++"),
   (".cs", "C#"),
   (".java", "Java"),
   (".rs", "Rust"),
   (".go", "Go"),
   (".ts", "TypeScript"),
   (".qss", "QSS"),
   (".sh", "Bash"),
   (".yaml", "YAML")]

/-- get_language_name.  The argument is the lower-cased Path suffix of
the file (extraction of the suffix from a path is library behaviour,
outside the embedded code); none stands for the empty file path, for
which the function returns Plain Text before looking at the suffix. -/
def get_language_name (suffixLower : Option String) : String :=
  match suffixLower with
  | none => "Plain Text"
  | some s =>
    match alookup LANGUAGE_NAMES s with
    | some name => name
    | none => "Plain Text"

/-- create_highlighter_by_name.  get_lexer_by_name is the external
pygments registry, modelled as a partial map from alias to lexer; none
stands for the ClassNotFound it raises, which the code catches.  The
result pairs the optionally created highlighter lexer with the reported
language name. -/
def create_highlighter_by_name (get_lexer_by_name : String → Option Lexer)
    (language_name : String) : Option Lexer × String :=
  if language_name = "Plain Text" then (none, "Plain Text")
  else
    match get_lexer_by_name (((alookup DISPLAY_NAME_TO_ALIAS language_name).getD
        language_name).toLower) with
    | some lexer => (some lexer, language_name)
    | none => (none, "Plain Text")

/-- Concatenation of the values of a token stream: for a faithful lexer
this is the tokenized text. -/
def concatValues (ts : List (TokenType × PyStr)) : PyStr :=
  (ts.map Prod.snd).flatten

/-- Direct whole-document tokenization, read off one pass of the raw
token stream: the classes for which the pass yields a stored span on
some line, namely the classes of tokens that are not filtered out and
whose value contributes at least one non-empty line part. -/
def directClasses (ts : List (TokenType × PyStr)) : List TokenType :=
  ts.filterMap (fun t =>
    if (splitNl t.2).any (fun p => storable t.1 p) then some t.1 else none)

/-- Sum of the lengths of all spans stored in the index. -/
def idxLen (idx : TokenIndex) : Nat :=
  (idx.map (fun e => (e.2.map (fun sp => sp.2.1)).sum)).sum

/-- End column of a span. -/
def spanEnd (sp : TokSpan) : Nat :=
  sp.1 + sp.2.1

/-- The spans of one line are ordered and pairwise disjoint: each span
ends at or before the next one starts. -/
def ChainOk (sps : List TokSpan) : Prop :=
  List.Chain' (fun a b => spanEnd a ≤ b.1) sps

/-- End column of the last span of a line, 0 for an empty line. -/
def entryEnd (sps : List TokSpan) : Nat :=
  match sps.getLast? with
  | some sp => spanEnd sp
  | none => 0

/-- A token class occurs somewhere in the index. -/
def ClassIn (tt : TokenType) (idx : TokenIndex) : Prop :=
  ∃ e ∈ idx, ∃ sp ∈ e.2, sp.2.2 = tt

/-- Invariant of the scan cursor: keys never exceed the current line and
are distinct, every stored line is ordered and disjoint with positive
span lengths, and on the current line the stored spans end at or before
the current column. -/
structure ScanInv (s : ScanSt) : Prop where
  keysLe : ∀ e ∈ s.idx, e.1 ≤ s.line
  nodupKeys : (s.idx.map Prod.fst).Nodup
  chains : ∀ e ∈ s.idx, ChainOk e.2
  pos : ∀ e ∈ s.idx, ∀ sp ∈ e.2, 0 < sp.2.1
  ends : ∀ e ∈ s.idx, e.1 = s.line → entryEnd e.2 ≤ s.col

/-- The Keyword token class. -/
def Kw : TokenType := ["Keyword"]

/-- A concrete fingerprint function for witnesses. -/
def hash0 : PyStr → Int := fun s => (s.length : Int)

/-- A lexer that yields the whole input as one Keyword token and
finishes normally. -/
def echoLexer : Lexer := fun s => ⟨[(Kw, s)], false⟩

/-- A lexer that yields one Keyword token and then raises. -/
def badLexer : Lexer := fun _ => ⟨[(Kw, ['v', 'a', 'r'])], true⟩

/-- Concrete input text var. -/
def text0 : PyStr := ['v', 'a', 'r']

/-- Concrete input text ab. -/
def textAB : PyStr := ['a', 'b']

/-- A state whose recorded hash matches hash0 textAB and that holds a
stale index entry. -/
def stHit : HLState :=
  ⟨[(0, [(0, 5, ["Name"])])], some 2, []⟩

/-- A dirty state with a leftover index, for determinism witnesses. -/
def stAlt : HLState :=
  ⟨[(7, [(1, 2, ["Number"])])], some 99, []⟩

/-- An empty pygments registry: every alias is unknown. -/
def glbn0 : String → Option Lexer := fun _ => none

/-- Modelled from the spec: the LexerRegionState enum of the
region-aware rule-based highlighter variant, whose source file is not
among the provided sources (only the pygments-backed variant is); Host
is plain markup, EmbeddedA the embedded script region, EmbeddedB the
embedded style region. -/
inductive LexerRegionState
  | Host
  | EmbeddedA
  | EmbeddedB
deriving DecidableEq, Repr

/-- Modelled from the spec: a rule-based grammar, an ordered list of
(pattern, class) pairs applied independently per line; patterns are
literal strings here. -/
structure RuleGrammar where
  rules : List (List Char × TokenType)

/-- A pattern occurs at position i of the line. -/
def occursAt (pat line : List Char) (i : Nat) : Bool :=
  !pat.isEmpty && pat.isPrefixOf (line.drop i)

/-- All positions at which a pattern occurs in a line. -/
def findAllOcc (pat line : List Char) : List Nat :=
  (List.range line.length).filter (occursAt pat line)

/-- Modelled from the spec: one per-line pass of a rule-based grammar,
each rule contributing a span for every occurrence of its pattern, in
rule order. -/
def tokenizeLineRules (g : RuleGrammar) (line : List Char) : List TokSpan :=
  (g.rules.map (fun r =>
    (findAllOcc r.1 line).map (fun i => (i, r.1.length, r.2)))).flatten

/-- Modelled from the spec: a region-aware grammar, a host rule set with
two embedded rule sets and the dedicated region start and end markers of
each. -/
structure RegionGrammar where
  host : RuleGrammar
  embeddedA : RuleGrammar
  embeddedB : RuleGrammar
  startA : List Char
  endA : List Char
  startB : List Char
  endB : List Char

/-- The rule set active in a region state. -/
def grammarFor (g : RegionGrammar) : LexerRegionState → RuleGrammar
  | LexerRegionState.Host => g.host
  | LexerRegionState.EmbeddedA => g.embeddedA
  | LexerRegionState.EmbeddedB => g.embeddedB

/-- A line contains an occurrence of a marker pattern. -/
def containsPat (line pat : List Char) : Bool :=
  !(findAllOcc pat line).isEmpty

/-- Modelled from the spec: the per-line boundary check, independent of
the main rule list, that computes the exit state of a line from its
entry state. -/
def exitState (g : RegionGrammar) (s : LexerRegionState) (line : List Char) :
    LexerRegionState :=
  match s with
  | LexerRegionState.Host =>
    if containsPat line g.startA then LexerRegionState.EmbeddedA
    else if containsPat line g.startB then LexerRegionState.EmbeddedB
    else LexerRegionState.Host
  | LexerRegionState.EmbeddedA =>
    if containsPat line g.endA then LexerRegionState.Host
    else LexerRegionState.EmbeddedA
  | LexerRegionState.EmbeddedB =>
    if containsPat line g.endB then LexerRegionState.Host
    else LexerRegionState.EmbeddedB

/-- Modelled from the spec: the rebuild as an explicit fold over lines,
each line tokenized under the rule set of its entry state and the
boundary check then computing its exit state, which is the next line
entry state.  Each result triple is (entry state, spans, exit state). -/
def regionScanLines (g : RegionGrammar) :
    List (List Char) → LexerRegionState →
    List (LexerRegionState × List TokSpan × LexerRegionState)
  | [], _ => []
  | l :: ls, s =>
    (s, tokenizeLineRules (grammarFor g s) l, exitState g s l) ::
      regionScanLines g ls (exitState g s l)

/-- Modelled from the spec: a full region-aware rebuild of a document,
document start entry state Host. -/
def regionScan (g : RegionGrammar) (text : List Char) :
    List (LexerRegionState × List TokSpan × LexerRegionState) :=
  regionScanLines g (splitNl text) LexerRegionState.Host

/-- The region state is carried line to line: each line entry state is
the exit state of the line before, starting from the given state. -/
def chainedFrom : LexerRegionState →
    List (LexerRegionState × List TokSpan × LexerRegionState) → Prop
  | _, [] => True
  | s, r :: rs => r.1 = s ∧ chainedFrom r.2.2 rs

/-- The markup grammar of the spec example: tag punctuation in the
host, the var keyword in the embedded script rule set, script and style
tags as region markers. -/
def htmlRegionGrammar : RegionGrammar where
  host := ⟨[((("<").toList), ["Punctuation"]), (((">").toList), ["Punctuation"])]⟩
  embeddedA := ⟨[((("var").toList), ["Keyword"])]⟩
  embeddedB := ⟨[]⟩
  startA := ("<script>").toList
  endA := ("</script>").toList
  startB := ("<style>").toList
  endB := ("</style>").toList

/-- The concrete markup input of the spec example. -/
def htmlInput : List Char :=
  ("<html>\n<body>\n<script>\nvar x = 1;\n</script>\n</body>\n</html>").toList

theorem foldl_preserve {α σ : Type _} (P : σ → Prop) (f : σ → α → σ)
    (l : List α) (s : σ) (h : P s) (hf : ∀ s a, P s → P (f s a)) :
    P (l.foldl f s) := by
  induction l generalizing s with
  | nil => exact h
  | cons a t ih => exact ih _ (hf s a h)

theorem splitNlCore_tail_length (s : PyStr) :
    (splitNlCore s).2.length = countNl s := by
  induction s with
  | nil => rfl
  | cons c cs ih =>
    simp only [splitNlCore, countNl, List.countP_cons]
    by_cases h : c = '\n' <;>
      simp [h, ih, countNl]

theorem splitNlCore_partsLen (s : PyStr) :
    (splitNlCore s).1.length + partsLen (splitNlCore s).2 + countNl s = s.length := by
  induction s with
  | nil => rfl
  | cons c cs ih =>
    simp only [splitNlCore, countNl, List.countP_cons]
    by_cases h : c = '\n' <;>
      simp [h, partsLen, countNl] at * <;> omega

theorem lineCount_eq (s : PyStr) : lineCount s = countNl s + 1 := by
  simp [lineCount, splitNl, splitNlCore_tail_length]

theorem indexAppend_keys (idx : TokenIndex) (k : Nat) (sp : TokSpan) :
    (indexAppend idx k sp).map Prod.fst =
      if k ∈ idx.map Prod.fst then idx.map Prod.fst
      else idx.map Prod.fst ++ [k] := by
  induction idx with
  | nil => simp [indexAppend]
  | cons e rest ih =>
    by_cases h : e.1 = k
    · simp [indexAppend, h]
    · by_cases hm : k ∈ rest.map Prod.fst <;>
        simp [indexAppend, h, Ne.symm h, hm, ih]

theorem indexAppend_nodupKeys {idx : TokenIndex} (k : Nat) (sp : TokSpan)
    (h : (idx.map Prod.fst).Nodup) :
    ((indexAppend idx k sp).map Prod.fst).Nodup := by
  rw [indexAppend_keys]
  split
  · exact h
  · next hk => simp [List.nodup_append, h, hk]

theorem indexAppend_of_not_mem {idx : TokenIndex} {k : Nat} (sp : TokSpan)
    (h : k ∉ idx.map Prod.fst) :
    indexAppend idx k sp = idx ++ [(k, [sp])] := by
  induction idx with
  | nil => rfl
  | cons e rest ih =>
    simp only [List.map_cons, List.mem_cons] at h
    push_neg at h
    simp [indexAppend, Ne.symm h.1, ih h.2]

theorem indexAppend_mem {idx : TokenIndex} {k : Nat} {sp : TokSpan}
    {e : Nat × List TokSpan} (hnd : (idx.map Prod.fst).Nodup)
    (he : e ∈ indexAppend idx k sp) :
    (e ∈ idx ∧ e.1 ≠ k) ∨
    (∃ v, (k, v) ∈ idx ∧ e = (k, v ++ [sp])) ∨
    (e = (k, [sp]) ∧ k ∉ idx.map Prod.fst) := by
  induction idx with
  | nil =>
    simp only [indexAppend, List.mem_singleton] at he
    right; right
    simp [he]
  | cons f rest ih =>
    rw [List.map_cons, List.nodup_cons] at hnd
    by_cases h : f.1 = k
    · rw [indexAppend, if_pos h] at he
      rcases List.mem_cons.mp he with he | he
      · right; left
        exact ⟨f.2, by simp [← h], by simp [he, h]⟩
      · left
        refine ⟨List.mem_cons_of_mem _ he, fun hk => ?_⟩
        exact hnd.1 (h ▸ hk ▸ List.mem_map_of_mem Prod.fst he)
    · rw [indexAppend, if_neg h] at he
      rcases List.mem_cons.mp he with he | he
      · left
        exact ⟨by simp [he], by simp [he, h]⟩
      · rcases ih hnd.2 he with h1 | h2 | h3
        · exact Or.inl ⟨List.mem_cons_of_mem _ h1.1, h1.2⟩
        · obtain ⟨v, hv, he2⟩ := h2
          exact Or.inr (Or.inl ⟨v, List.mem_cons_of_mem _ hv, he2⟩)
        · right; right
          refine ⟨h3.1, ?_⟩
          simp only [List.map_cons, List.mem_cons]
          push_neg
          exact ⟨fun hk => h hk.symm, h3.2⟩

theorem indexGet_sub {idx : TokenIndex} {n : Nat} {sp : TokSpan}
    (h : sp ∈ indexGet idx n) : ∃ e ∈ idx, e.1 = n ∧ sp ∈ e.2 := by
  induction idx with
  | nil => simp [indexGet] at h
  | cons e rest ih =>
    by_cases hk : e.1 = n
    · exact ⟨e, by simp, hk, by simpa [indexGet, hk] using h⟩
    · obtain ⟨f, hf, h1, h2⟩ := ih (by simpa [indexGet, hk] using h)
      exact ⟨f, by simp [hf], h1, h2⟩

theorem indexGet_of_mem {idx : TokenIndex} {e : Nat × List TokSpan}
    (hnd : (idx.map Prod.fst).Nodup) (he : e ∈ idx) :
    indexGet idx e.1 = e.2 := by
  induction idx with
  | nil => simp at he
  | cons f rest ih =>
    rw [List.map_cons, List.nodup_cons] at hnd
    rcases List.mem_cons.mp he with he | he
    · simp [indexGet, he]
    · have hne : f.1 ≠ e.1 := fun hk => hnd.1 (hk ▸ List.mem_map_of_mem Prod.fst he)
      simp [indexGet, hne, ih hnd.2 he]

theorem indexGet_eq_nil {idx : TokenIndex} {n : Nat}
    (h : ∀ e ∈ idx, e.1 ≠ n) : indexGet idx n = [] := by
  induction idx with
  | nil => rfl
  | cons e rest ih =>
    rw [indexGet, if_neg (h e (by simp))]
    exact ih fun f hf => h f (by simp [hf])

theorem classIn_indexAppend (idx : TokenIndex) (k : Nat) (sp : TokSpan) (tt : TokenType) :
    ClassIn tt (indexAppend idx k sp) ↔ ClassIn tt idx ∨ sp.2.2 = tt := by
  induction idx with
  | nil =>
    constructor
    · rintro ⟨e, he, sp', hsp', hc⟩
      rw [indexAppend, List.mem_singleton] at he
      subst he
      rw [List.mem_singleton] at hsp'
      exact Or.inr (hsp' ▸ hc)
    · rintro (⟨e, he, _⟩ | hc)
      · simp [ClassIn] at he
      · exact ⟨(k, [sp]), by simp [indexAppend], sp, by simp, hc⟩
  | cons e rest ih =>
    by_cases h : e.1 = k
    · simp only [indexAppend, if_pos h, ClassIn, List.mem_cons] at *
      constructor
      · rintro ⟨f, hf | hf, sp', hsp', hc⟩
        · rcases List.mem_append.mp (hf ▸ hsp') with hm | hm
          · exact Or.inl ⟨e, Or.inl rfl, sp', hm, hc⟩
          · simp only [List.mem_singleton] at hm
            exact Or.inr (hm ▸ hc)
        · exact Or.inl ⟨f, Or.inr hf, sp', hsp', hc⟩
      · rintro (⟨f, hf | hf, sp', hsp', hc⟩ | hc)
        · exact ⟨(e.1, e.2 ++ [sp]), Or.inl rfl, sp', by simp [hf ▸ hsp'], hc⟩
        · exact ⟨f, Or.inr hf, sp', hsp', hc⟩
        · exact ⟨(e.1, e.2 ++ [sp]), Or.inl rfl, sp, by simp, hc⟩
    · simp only [indexAppend, if_neg h, ClassIn, List.mem_cons] at *
      constructor
      · rintro ⟨f, hf | hf, sp', hsp', hc⟩
        · exact Or.inl ⟨f, Or.inl hf, sp', hsp', hc⟩
        · rcases ih.mp ⟨f, hf, sp', hsp', hc⟩ with hm | hm
          · obtain ⟨g, hg, sp2, hsp2, hc2⟩ := hm
            exact Or.inl ⟨g, Or.inr hg, sp2, hsp2, hc2⟩
          · exact Or.inr hm
      · rintro (⟨f, hf | hf, sp', hsp', hc⟩ | hc)
        · exact ⟨f, Or.inl hf, sp', hsp', hc⟩
        · obtain ⟨g, hg, sp2, hsp2, hc2⟩ := ih.mpr (Or.inl ⟨f, hf, sp', hsp', hc⟩)
          exact ⟨g, Or.inr hg, sp2, hsp2, hc2⟩
        · obtain ⟨g, hg, sp2, hsp2, hc2⟩ := ih.mpr (Or.inr hc)
          exact ⟨g, Or.inr hg, sp2, hsp2, hc2⟩

theorem foldParts_line (tt : TokenType) (ps : List PyStr) (s : ScanSt) :
    (ps.foldl (fun a q => stepPart tt true q a) s).line = s.line + ps.length := by
  induction ps generalizing s with
  | nil => simp
  | cons p ps ih =>
    rw [List.foldl_cons, ih]
    simp [stepPart]
    omega

theorem stepToken_line (s : ScanSt) (t : TokenType × PyStr) :
    (stepToken s t).line = s.line + countNl t.2 := by
  rw [stepToken, foldParts_line, splitNlCore_tail_length]
  simp [stepPart]

theorem scan_line (ts : List (TokenType × PyStr)) :
    ∀ s : ScanSt, (ts.foldl stepToken s).line = s.line + countNl (concatValues ts) := by
  induction ts with
  | nil =>
    intro s
    simp [concatValues, countNl]
  | cons t ts ih =>
    intro s
    rw [List.foldl_cons, ih, stepToken_line]
    simp only [concatValues, List.map_cons, List.flatten_cons, countNl, List.countP_append]
    omega

theorem idxLen_indexAppend (idx : TokenIndex) (k : Nat) (sp : TokSpan) :
    idxLen (indexAppend idx k sp) = idxLen idx + sp.2.1 := by
  induction idx with
  | nil => simp [indexAppend, idxLen]
  | cons e rest ih =>
    by_cases h : e.1 = k <;>
      simp [indexAppend, h, idxLen] at * <;> omega

theorem stepPart_idxLen (tt : TokenType) (adv : Bool) (part : PyStr) (s : ScanSt) :
    idxLen (stepPart tt adv part s).idx ≤ idxLen s.idx + part.length := by
  by_cases hst : storable tt part = true <;>
    simp [stepPart, hst, idxLen_indexAppend]

theorem foldParts_idxLen (tt : TokenType) (ps : List PyStr) (s : ScanSt) :
    idxLen (ps.foldl (fun a q => stepPart tt true q a) s).idx ≤
      idxLen s.idx + partsLen ps := by
  induction ps generalizing s with
  | nil => simp [partsLen]
  | cons p ps ih =>
    rw [List.foldl_cons]
    have h1 := ih (stepPart tt true p s)
    have h2 := stepPart_idxLen tt true p s
    have h3 : partsLen (p :: ps) = p.length + partsLen ps := by
      simp [partsLen]
    omega

theorem stepToken_idxLen (s : ScanSt) (t : TokenType × PyStr) :
    idxLen (stepToken s t).idx ≤ idxLen s.idx + t.2.length := by
  have h1 := foldParts_idxLen t.1 (splitNlCore t.2).2
    (stepPart t.1 false (splitNlCore t.2).1 s)
  have h2 := stepPart_idxLen t.1 false (splitNlCore t.2).1 s
  have h3 := splitNlCore_partsLen t.2
  rw [stepToken]
  omega

theorem scan_idxLen (ts : List (TokenType × PyStr)) :
    ∀ s : ScanSt,
      idxLen ((ts.foldl stepToken s).idx) ≤ idxLen s.idx + (concatValues ts).length := by
  induction ts with
  | nil =>
    intro s
    simp [concatValues]
  | cons t ts ih =>
    intro s
    rw [List.foldl_cons]
    have h1 := ih (stepToken s t)
    have h2 := stepToken_idxLen s t
    have h3 : (concatValues (t :: ts)).length = t.2.length + (concatValues ts).length := by
      simp [concatValues]
    omega

theorem entryEnd_append (v : List TokSpan) (sp : TokSpan) :
    entryEnd (v ++ [sp]) = spanEnd sp := by
  simp [entryEnd, List.getLast?_concat]

theorem chainOk_append {v : List TokSpan} {sp : TokSpan} (hv : ChainOk v)
    (hend : entryEnd v ≤ sp.1) : ChainOk (v ++ [sp]) := by
  rw [ChainOk, List.chain'_append]
  refine ⟨hv, List.chain'_singleton _, ?_⟩
  intro x hx y hy
  simp only [List.head?_cons, Option.mem_some_iff] at hy
  subst hy
  cases hgl : v.getLast? with
  | none =>
    rw [hgl] at hx
    simp at hx
  | some z =>
    rw [hgl] at hx
    simp only [Option.mem_some_iff] at hx
    subst hx
    rw [entryEnd, hgl] at hend
    exact hend

theorem scanInv_core {idx : TokenIndex} {oldLine oldCol line2 col0 : Nat}
    (inv : ScanInv ⟨oldLine, oldCol, idx⟩)
    (hline : oldLine ≤ line2)
    (hF2 : ∀ e ∈ idx, e.1 = line2 → entryEnd e.2 ≤ col0)
    (tt : TokenType) (len : Nat) (hlen : 0 < len) :
    ScanInv ⟨line2, col0 + len, indexAppend idx line2 (col0, len, tt)⟩ := by
  refine ⟨?_, ?_, ?_, ?_, ?_⟩
  · intro e he
    rcases indexAppend_mem inv.nodupKeys he with ⟨he2, _⟩ | ⟨v, _, he2⟩ | ⟨he2, _⟩
    · exact le_trans (inv.keysLe e he2) hline
    · simp [he2]
    · simp [he2]
  · exact indexAppend_nodupKeys _ _ inv.nodupKeys
  · intro e he
    rcases indexAppend_mem inv.nodupKeys he with ⟨he2, _⟩ | ⟨v, hv, he2⟩ | ⟨he2, _⟩
    · exact inv.chains e he2
    · subst he2
      exact chainOk_append (inv.chains (line2, v) hv) (hF2 (line2, v) hv rfl)
    · subst he2
      exact List.chain'_singleton _
  · intro e he
    rcases indexAppend_mem inv.nodupKeys he with ⟨he2, _⟩ | ⟨v, hv, he2⟩ | ⟨he2, _⟩
    · exact inv.pos e he2
    · subst he2
      intro sp hsp
      rcases List.mem_append.mp hsp with hm | hm
      · exact inv.pos (line2, v) hv sp hm
      · rw [List.mem_singleton] at hm
        subst hm
        exact hlen
    · subst he2
      intro sp hsp
      rw [List.mem_singleton] at hsp
      subst hsp
      exact hlen
  · intro e he _
    rcases indexAppend_mem inv.nodupKeys he with ⟨he2, hne⟩ | ⟨v, hv, he2⟩ | ⟨he2, _⟩
    · rename_i hkey
      exact absurd hkey hne
    · subst he2
      rw [entryEnd_append]
      simp [spanEnd]
    · subst he2
      have : ([] : List TokSpan) ++ [(col0, len, tt)] = [(col0, len, tt)] := by simp
      rw [← this, entryEnd_append]
      simp [spanEnd]

theorem scanInv_skip {idx : TokenIndex} {oldLine oldCol line2 col0 : Nat}
    (inv : ScanInv ⟨oldLine, oldCol, idx⟩)
    (hline : oldLine ≤ line2)
    (hF2 : ∀ e ∈ idx, e.1 = line2 → entryEnd e.2 ≤ col0)
    (len : Nat) :
    ScanInv ⟨line2, col0 + len, idx⟩ := by
  refine ⟨?_, inv.nodupKeys, inv.chains, inv.pos, ?_⟩
  · intro e he
    exact le_trans (inv.keysLe e he) hline
  · intro e he hkey
    exact le_trans (hF2 e he hkey) (Nat.le_add_right _ _)

theorem scanInv_stepPart {s : ScanSt} (inv : ScanInv s) (tt : TokenType)
    (adv : Bool) (part : PyStr) : ScanInv (stepPart tt adv part s) := by
  obtain ⟨line, col, idx⟩ := s
  have hF2 : ∀ e ∈ idx, e.1 = (if adv then line + 1 else line) →
      entryEnd e.2 ≤ (if adv then 0 else col) := by
    cases adv
    · simpa using inv.ends
    · intro e he hkey
      have := inv.keysLe e he
      simp at this hkey ⊢
      omega
  have hline : line ≤ (if adv then line + 1 else line) := by
    cases adv <;> simp
  by_cases hst : storable tt part = true
  · have hpos : 0 < part.length := by
      rw [storable, Bool.and_eq_true] at hst
      cases part
      · simp at hst
      · simp
    simp only [stepPart, if_pos hst]
    exact scanInv_core inv hline hF2 tt part.length hpos
  · simp only [stepPart, if_neg hst]
    exact scanInv_skip inv hline hF2 part.length

theorem scanInv_stepToken {s : ScanSt} (inv : ScanInv s) (t : TokenType × PyStr) :
    ScanInv (stepToken s t) := by
  rw [stepToken]
  exact foldl_preserve ScanInv _ _ _
    (scanInv_stepPart inv t.1 false (splitNlCore t.2).1)
    (fun s q h => scanInv_stepPart h t.1 true q)

theorem scanInv_init : ScanInv ⟨0, 0, []⟩ := by
  refine ⟨?_, ?_, ?_, ?_, ?_⟩ <;> simp

theorem scanInv_scanTokens (ts : List (TokenType × PyStr)) :
    ScanInv (scanTokens ts) := by
  rw [scanTokens]
  exact foldl_preserve ScanInv _ _ _ scanInv_init
    (fun s t h => scanInv_stepToken h t)

theorem classIn_stepPart (tt0 : TokenType) (adv : Bool) (part : PyStr)
    (s : ScanSt) (tt : TokenType) :
    ClassIn tt (stepPart tt0 adv part s).idx ↔
      ClassIn tt s.idx ∨ (storable tt0 part = true ∧ tt0 = tt) := by
  by_cases hst : storable tt0 part = true
  · simp only [stepPart, if_pos hst, classIn_indexAppend]
    tauto
  · simp only [stepPart, if_neg hst]
    tauto

theorem classIn_foldParts (tt0 : TokenType) (ps : List PyStr) (s : ScanSt)
    (tt : TokenType) :
    ClassIn tt ((ps.foldl (fun a q => stepPart tt0 true q a) s).idx) ↔
      ClassIn tt s.idx ∨ (tt0 = tt ∧ ∃ p ∈ ps, storable tt0 p = true) := by
  induction ps generalizing s with
  | nil => simp
  | cons p ps ih =>
    rw [List.foldl_cons, ih, classIn_stepPart]
    constructor
    · rintro ((h | ⟨h1, h2⟩) | ⟨h1, p2, hp2, h3⟩)
      · exact Or.inl h
      · exact Or.inr ⟨h2, p, by simp, h1⟩
      · exact Or.inr ⟨h1, p2, by simp [hp2], h3⟩
    · rintro (h | ⟨h1, p2, hp2, h3⟩)
      · exact Or.inl (Or.inl h)
      · rcases List.mem_cons.mp hp2 with rfl | hm
        · exact Or.inl (Or.inr ⟨h3, h1⟩)
        · exact Or.inr ⟨h1, p2, hm, h3⟩

theorem classIn_stepToken (s : ScanSt) (t : TokenType × PyStr) (tt : TokenType) :
    ClassIn tt (stepToken s t).idx ↔
      ClassIn tt s.idx ∨ (t.1 = tt ∧ ∃ p ∈ splitNl t.2, storable t.1 p = true) := by
  rw [stepToken, classIn_foldParts, classIn_stepPart]
  constructor
  · rintro ((h | ⟨h1, h2⟩) | ⟨h1, p2, hp2, h3⟩)
    · exact Or.inl h
    · exact Or.inr ⟨h2, (splitNlCore t.2).1, by simp [splitNl], h1⟩
    · exact Or.inr ⟨h1, p2, by simp [splitNl, hp2], h3⟩
  · rintro (h | ⟨h1, p2, hp2, h3⟩)
    · exact Or.inl (Or.inl h)
    · rcases List.mem_cons.mp hp2 with rfl | hm
      · exact Or.inl (Or.inr ⟨h3, h1⟩)
      · exact Or.inr ⟨h1, p2, hm, h3⟩

theorem classIn_scan (ts : List (TokenType × PyStr)) (tt : TokenType) :
    ClassIn tt (scanTokens ts).idx ↔
      ∃ t ∈ ts, t.1 = tt ∧ ∃ p ∈ splitNl t.2, storable t.1 p = true := by
  rw [scanTokens]
  have main : ∀ s : ScanSt, ClassIn tt (ts.foldl stepToken s).idx ↔
      ClassIn tt s.idx ∨ ∃ t ∈ ts, t.1 = tt ∧ ∃ p ∈ splitNl t.2, storable t.1 p = true := by
    induction ts with
    | nil => simp
    | cons t ts ih =>
      intro s
      rw [List.foldl_cons, ih, classIn_stepToken]
      constructor
      · rintro ((h | h2) | ⟨t2, ht2, h3⟩)
        · exact Or.inl h
        · exact Or.inr ⟨t, by simp, h2⟩
        · exact Or.inr ⟨t2, by simp [ht2], h3⟩
      · rintro (h | ⟨t2, ht2, h3⟩)
        · exact Or.inl (Or.inl h)
        · rcases List.mem_cons.mp ht2 with rfl | hm
          · exact Or.inl (Or.inr h3)
          · exact Or.inr ⟨t2, hm, h3⟩
  rw [main]
  have : ¬ ClassIn tt ([] : TokenIndex) := by simp [ClassIn]
  tauto

theorem mem_directClasses (ts : List (TokenType × PyStr)) (tt : TokenType) :
    tt ∈ directClasses ts ↔
      ∃ t ∈ ts, t.1 = tt ∧ ∃ p ∈ splitNl t.2, storable t.1 p = true := by
  rw [directClasses, List.mem_filterMap]
  constructor
  · rintro ⟨t, ht, hsome⟩
    split at hsome
    · next hany =>
      rw [Option.some_inj] at hsome
      rw [List.any_eq_true] at hany
      obtain ⟨p, hp, hst⟩ := hany
      exact ⟨t, ht, hsome, p, hp, hst⟩
    · exact absurd hsome (by simp)
  · rintro ⟨t, ht, h1, p, hp, hst⟩
    refine ⟨t, ht, ?_⟩
    rw [if_pos (List.any_eq_true.mpr ⟨p, hp, hst⟩), h1]

theorem format_walk_chain : ∀ (n : Nat) (tt : TokenType), tt.length ≤ n →
    _format_walk (tokenParent tt) =
      (match nearestRuledAncestor tt with
       | some (c, b, i) => _create_format c b i
       | none => _create_format ("#d4d4d4") false false) := by
  intro n
  induction n with
  | zero =>
    intro tt h
    have htt : tt = [] := by cases tt <;> simp_all
    subst htt
    rw [show tokenParent [] = none from rfl, _format_walk]
    have hne : nearestRuledAncestor [] = none := by
      rw [nearestRuledAncestor, ancestorChain]
      simp
    rw [hne]
  | succ n ih =>
    intro tt h
    cases tt with
    | nil =>
      rw [show tokenParent [] = none from rfl, _format_walk]
      have hne : nearestRuledAncestor [] = none := by
        rw [nearestRuledAncestor, ancestorChain]
        simp
      rw [hne]
    | cons a l =>
      rw [show tokenParent (a :: l) = some ((a :: l).dropLast) from rfl, _format_walk]
      have hchain : ancestorChain (a :: l) =
          (a :: l).dropLast :: ancestorChain ((a :: l).dropLast) := by
        rw [ancestorChain]
      rw [nearestRuledAncestor, hchain, List.findSome?_cons]
      cases hl : alookup TOKEN_COLORS ((a :: l).dropLast) with
      | some v =>
        obtain ⟨c, b, i⟩ := v
        simp [hl]
      | none =>
        simp only [hl]
        have hlen : ((a :: l).dropLast).length ≤ n := by
          simp only [List.length_dropLast, List.length_cons] at h ⊢
          omega
        rw [ih _ hlen, nearestRuledAncestor]

theorem tok_clean {pyHash : PyStr → Int} {lexer : Lexer} {text : PyStr} {st : HLState}
    (h : some (pyHash text) = st.lastTextHash) :
    _tokenize_document pyHash lexer text st = (st, none) := by
  rw [_tokenize_document, if_pos h]

theorem tok_dirty {pyHash : PyStr → Int} {lexer : Lexer} {text : PyStr} {st : HLState}
    (h : some (pyHash text) ≠ st.lastTextHash) :
    _tokenize_document pyHash lexer text st =
      ({ st with blockTokens := (scanTokens (lexer text).tokens).idx,
                 lastTextHash := some (pyHash text) }, none) := by
  rw [_tokenize_document, if_neg h]
  rfl

theorem initState_dirty (pyHash : PyStr → Int) (text : PyStr) :
    some (pyHash text) ≠ initState.lastTextHash := by
  simp [initState]

theorem formatLine_nil (cache : List (TokenType × CharFormat)) :
    formatLine cache [] = ([], cache) := rfl

theorem highlightBlock_eq (pyHash : PyStr → Int) (lexer : Lexer) (text : PyStr)
    (n : Nat) (st : HLState) :
    highlightBlock pyHash lexer text n st =
      ({ (_tokenize_document pyHash lexer text st).1 with
          formatCache := (formatLine (_tokenize_document pyHash lexer text st).1.formatCache
            (indexGet (_tokenize_document pyHash lexer text st).1.blockTokens n)).2 },
       (formatLine (_tokenize_document pyHash lexer text st).1.formatCache
         (indexGet (_tokenize_document pyHash lexer text st).1.blockTokens n)).1,
       (_tokenize_document pyHash lexer text st).2) := rfl

theorem scan_keys_lt {ts : List (TokenType × PyStr)} {text : PyStr}
    (hconcat : concatValues ts = text) :
    ∀ e ∈ (scanTokens ts).idx, e.1 < lineCount text := by
  intro e he
  have h1 := (scanInv_scanTokens ts).keysLe e he
  have h2 : (scanTokens ts).line = countNl text := by
    rw [scanTokens, scan_line, hconcat]
    simp
  rw [lineCount_eq]
  omega

theorem chainedFrom_regionScanLines (g : RegionGrammar) :
    ∀ (ls : List (List Char)) (s : LexerRegionState),
      chainedFrom s (regionScanLines g ls s) := by
  intro ls
  induction ls with
  | nil =>
    intro s
    rw [regionScanLines, chainedFrom]
    trivial
  | cons l ls ih =>
    intro s
    rw [regionScanLines, chainedFrom]
    exact ⟨rfl, ih _⟩

/-- C1, amended: a rebuild over changed content always replaces the
index by exactly the scan of the tokens the lexer yielded, whether or
not the stream then raises — so no stale data from the previous content
survives, but a failure after some yielded tokens retains that partial
data (the index is empty only when the failure precedes the first
stored token); the fingerprint is recorded before tokenizing, so the
failed rebuild is never retried for the same content and only a content
change (different fingerprint) triggers another attempt. -/
theorem c1_failed_rebuild_fresh_index_no_retry
    (pyHash : PyStr → Int) (lexer : Lexer) (text : PyStr) (st : HLState)
    (hdirty : some (pyHash text) ≠ st.lastTextHash) :
    (_tokenize_document pyHash lexer text st).1.blockTokens
        = (scanTokens (lexer text).tokens).idx ∧
    (_tokenize_document pyHash lexer text st).1.lastTextHash = some (pyHash text) ∧
    _tokenize_document pyHash lexer text (_tokenize_document pyHash lexer text st).1
        = ((_tokenize_document pyHash lexer text st).1, none) ∧
    (∀ text2 : PyStr, some (pyHash text2) ≠ some (pyHash text) →
      (_tokenize_document pyHash lexer text2
          (_tokenize_document pyHash lexer text st).1).1.blockTokens
        = (scanTokens (lexer text2).tokens).idx) := by
  rw [tok_dirty hdirty]
  refine ⟨rfl, rfl, tok_clean rfl, fun text2 hne => ?_⟩
  rw [tok_dirty hne]

/-- C1 counterexample: a lexer that yields one Keyword token and then
raises makes the rebuild fail, yet the resulting line-token index is
not empty — the partial token data is retained, refuting that any
failed rebuild leaves an empty index. -/
theorem c1_counterexample :
    (badLexer text0).fails = true ∧
    some (hash0 text0) ≠ initState.lastTextHash ∧
    (_tokenize_document hash0 badLexer text0 initState).1.blockTokens ≠ [] := by
  refine ⟨rfl, by simp [initState], ?_⟩
  decide

/-- C1 witness: the amended theorem applied to the failing lexer at a
concrete input. -/
theorem c1_witness :
    (_tokenize_document hash0 badLexer text0 initState).1.blockTokens
      = (scanTokens (badLexer text0).tokens).idx :=
  (c1_failed_rebuild_fresh_index_no_retry hash0 badLexer text0 initState
    (by simp [initState])).1

/-- C2: after an invalidated (fresh) state, rebuilding and then querying
the per-line tokens of every line of the document yields, across all
lines, exactly the token classes that one direct whole-document
tokenization pass yields (the classes of unfiltered tokens contributing
a non-empty line part): the cached-then-queried tokens are a lossless
round trip of one direct tokenization. -/
theorem c2_cache_roundtrip (pyHash : PyStr → Int) (lexer : Lexer) (text : PyStr)
    (hconcat : concatValues (lexer text).tokens = text) :
    ∀ tt : TokenType,
      (∃ n, n < lineCount text ∧
        ∃ sp ∈ lineTokens (_tokenize_document pyHash lexer text initState).1 n,
          sp.2.2 = tt) ↔
      tt ∈ directClasses (lexer text).tokens := by
  intro tt
  have hst : (_tokenize_document pyHash lexer text initState).1.blockTokens
      = (scanTokens (lexer text).tokens).idx := by
    rw [tok_dirty (initState_dirty pyHash text)]
  constructor
  · rintro ⟨n, hn, sp, hsp, hc⟩
    rw [lineTokens, hst] at hsp
    obtain ⟨e, he, hkey, hm⟩ := indexGet_sub hsp
    rw [mem_directClasses, ← classIn_scan]
    exact ⟨e, he, sp, hm, hc⟩
  · intro hmem
    rw [mem_directClasses, ← classIn_scan] at hmem
    obtain ⟨e, he, sp, hm, hc⟩ := hmem
    refine ⟨e.1, scan_keys_lt hconcat e he, sp, ?_, hc⟩
    rw [lineTokens, hst, indexGet_of_mem (scanInv_scanTokens _).nodupKeys he]
    exact hm

/-- C2 witness: the round trip applied to a concrete lexer and text,
recovering the Keyword class from the per-line queries. -/
theorem c2_witness :
    ∃ n, n < lineCount textAB ∧
      ∃ sp ∈ lineTokens (_tokenize_document hash0 echoLexer textAB initState).1 n,
        sp.2.2 = Kw :=
  (c2_cache_roundtrip hash0 echoLexer textAB (by decide) Kw).mpr (by decide)

/-- C3: in the index a rebuild produces, every line's spans are ordered
by start column and pairwise disjoint (each span ends at or before the
next starts) with positive lengths, and when the lexer covers the text
(values concatenate to it) the total span length is at most the text
length. -/
theorem c3_span_invariants (pyHash : PyStr → Int) (lexer : Lexer) (text : PyStr) :
    (∀ e ∈ (_tokenize_document pyHash lexer text initState).1.blockTokens,
      ChainOk e.2 ∧ ∀ sp ∈ e.2, 0 < sp.2.1) ∧
    (concatValues (lexer text).tokens = text →
      idxLen (_tokenize_document pyHash lexer text initState).1.blockTokens
        ≤ text.length) := by
  have hst : (_tokenize_document pyHash lexer text initState).1.blockTokens
      = (scanTokens (lexer text).tokens).idx := by
    rw [tok_dirty (initState_dirty pyHash text)]
  constructor
  · intro e he
    rw [hst] at he
    exact ⟨(scanInv_scanTokens _).chains e he, (scanInv_scanTokens _).pos e he⟩
  · intro hconcat
    rw [hst]
    have h := scan_idxLen (lexer text).tokens ⟨0, 0, []⟩
    rw [hconcat] at h
    have h0 : idxLen (⟨0, 0, ([] : TokenIndex)⟩ : ScanSt).idx = 0 := by simp [idxLen]
    rw [scanTokens]
    omega

/-- C3 witness: the length bound applied to a concrete covering lexer. -/
theorem c3_witness :
    idxLen (_tokenize_document hash0 echoLexer textAB initState).1.blockTokens
      ≤ textAB.length :=
  (c3_span_invariants hash0 echoLexer textAB).2 (by decide)

/-- C4: the index is rebuilt exactly when the document fingerprint
differs from the recorded one — a request over unchanged content (equal
fingerprint) performs no rebuild and leaves the whole state unchanged,
while a changed fingerprint replaces the index wholesale with the scan
of the new content tokenization and records the new fingerprint. -/
theorem c4_fingerprint_gates_rebuild (pyHash : PyStr → Int) (lexer : Lexer)
    (text : PyStr) (st : HLState) :
    (some (pyHash text) = st.lastTextHash →
      _tokenize_document pyHash lexer text st = (st, none)) ∧
    (some (pyHash text) ≠ st.lastTextHash →
      (_tokenize_document pyHash lexer text st).1.blockTokens
          = (scanTokens (lexer text).tokens).idx ∧
      (_tokenize_document pyHash lexer text st).1.lastTextHash = some (pyHash text)) :=
  ⟨fun h => tok_clean h, fun h => by rw [tok_dirty h]; exact ⟨rfl, rfl⟩⟩

/-- C4 witness: both branches at concrete inputs — a matching
fingerprint keeps the stale state untouched, a fresh state rebuilds. -/
theorem c4_witness :
    _tokenize_document hash0 echoLexer textAB stHit = (stHit, none) ∧
    (_tokenize_document hash0 echoLexer textAB initState).1.blockTokens
      = (scanTokens (echoLexer textAB).tokens).idx :=
  ⟨(c4_fingerprint_gates_rebuild hash0 echoLexer textAB stHit).1 (by decide),
   ((c4_fingerprint_gates_rebuild hash0 echoLexer textAB initState).2
     (by simp [initState])).1⟩

/-- C5: neither the rebuild nor the per-line formatting ever lets an
exception escape, for every text, every state and every lexer —
including one whose stream raises after its yielded tokens: the except
clause swallows the failure and both operations return normally (their
results are total values of the embedding, hence finite). -/
theorem c5_no_exception_escapes (pyHash : PyStr → Int) (lexer : Lexer)
    (text : PyStr) (n : Nat) (st : HLState) :
    (_tokenize_document pyHash lexer text st).2 = none ∧
    (highlightBlock pyHash lexer text n st).2.2 = none := by
  have h1 : (_tokenize_document pyHash lexer text st).2 = none := by
    rw [_tokenize_document]
    split <;> rfl
  exact ⟨h1, by rw [highlightBlock_eq]; exact h1⟩

/-- C6: an unknown language identifier makes create_highlighter_by_name
return no highlighter and Plain Text instead of raising; a document so
configured answers every per-line formatting request with the empty
span list (default styling) and no exception; and a file extension
absent from the extension table resolves to Plain Text. -/
theorem c6_unknown_language (glbn : String → Option Lexer) (name : String)
    (h : glbn (((alookup DISPLAY_NAME_TO_ALIAS name).getD name).toLower) = none) :
    create_highlighter_by_name glbn name = (none, "Plain Text") ∧
    (∀ (pyHash : PyStr → Int) (text : PyStr) (n : Nat) (st : HLState),
      requestLineFormatting pyHash (create_highlighter_by_name glbn name).1 text n st
        = (st, [], none)) ∧
    (∀ s : String, alookup LANGUAGE_NAMES s = none →
      get_language_name (some s) = "Plain Text") := by
  have hmain : create_highlighter_by_name glbn name = (none, "Plain Text") := by
    rw [create_highlighter_by_name]
    split
    · rfl
    · rw [h]
  refine ⟨hmain, fun pyHash text n st => ?_, fun s hs => ?_⟩
  · rw [hmain]
    rfl
  · simp only [get_language_name]
    rw [hs]

/-- C6 witness: the unknown name of the spec and an unknown extension,
against an empty lexer registry. -/
theorem c6_witness :
    create_highlighter_by_name glbn0 ("Not A Real Language") = (none, "Plain Text") ∧
    get_language_name (some (".xyz")) = "Plain Text" :=
  ⟨(c6_unknown_language glbn0 ("Not A Real Language") rfl).1,
   (c6_unknown_language glbn0 ("Not A Real Language") rfl).2.2 (".xyz") (by decide)⟩

/-- C7: style resolution follows the ancestor walk — exact rule if
present, else the rule of the nearest ruled ancestor, else the default
style; in particular Keyword.Reserved (no exact rule, nearest ruled
ancestor Keyword) resolves to the Keyword style and Unknown.Custom
resolves to the default style. -/
theorem c7_style_resolution :
    (∀ tt : TokenType, _get_format_for_token tt = styleResolutionSpec tt) ∧
    _get_format_for_token (["Keyword", "Reserved"]) = _create_format ("#569cd6") true false ∧
    _get_format_for_token (["Keyword", "Reserved"]) = _get_format_for_token (["Keyword"]) ∧
    _get_format_for_token (["Unknown", "Custom"]) = _create_format ("#d4d4d4") false false := by
  refine ⟨?_, ?_, ?_, ?_⟩
  · intro tt
    rw [_get_format_for_token, styleResolutionSpec]
    cases hl : alookup TOKEN_COLORS tt with
    | some v =>
      obtain ⟨c, b, i⟩ := v
      simp [hl]
    | none =>
      simp only [hl]
      exact format_walk_chain tt.length tt le_rfl
  · simp [_get_format_for_token, _format_walk, tokenParent, alookup, TOKEN_COLORS]
  · simp [_get_format_for_token, _format_walk, tokenParent, alookup, TOKEN_COLORS]
  · simp [_get_format_for_token, _format_walk, tokenParent, alookup, TOKEN_COLORS]

/-- C8: a per-line request for a line at or past the line count of the
document, or for any line with no stored tokens, returns the empty span
sequence, and no exception escapes. -/
theorem c8_out_of_range_empty (pyHash : PyStr → Int) (lexer : Lexer) (text : PyStr)
    (n : Nat) (hconcat : concatValues (lexer text).tokens = text)
    (hn : lineCount text ≤ n) :
    lineTokens (_tokenize_document pyHash lexer text initState).1 n = [] ∧
    (highlightBlock pyHash lexer text n initState).2.1 = [] ∧
    (highlightBlock pyHash lexer text n initState).2.2 = none ∧
    (∀ m : Nat, lineTokens (_tokenize_document pyHash lexer text initState).1 m = [] →
      (highlightBlock pyHash lexer text m initState).2.1 = []) := by
  have hst : (_tokenize_document pyHash lexer text initState).1.blockTokens
      = (scanTokens (lexer text).tokens).idx := by
    rw [tok_dirty (initState_dirty pyHash text)]
  have hms : ∀ m : Nat,
      lineTokens (_tokenize_document pyHash lexer text initState).1 m = [] →
      (highlightBlock pyHash lexer text m initState).2.1 = [] := by
    intro m hm
    rw [lineTokens] at hm
    have hb : (highlightBlock pyHash lexer text m initState).2.1 =
        (formatLine (_tokenize_document pyHash lexer text initState).1.formatCache
          (indexGet (_tokenize_document pyHash lexer text initState).1.blockTokens m)).1 :=
      rfl
    rw [hb, hm, formatLine_nil]
  have hnil : lineTokens (_tokenize_document pyHash lexer text initState).1 n = [] := by
    rw [lineTokens, hst]
    apply indexGet_eq_nil
    intro e he
    have := scan_keys_lt hconcat e he
    omega
  have hexc : (highlightBlock pyHash lexer text n initState).2.2 = none := by
    have h2 : (highlightBlock pyHash lexer text n initState).2.2 =
        (_tokenize_document pyHash lexer text initState).2 := rfl
    rw [h2, _tokenize_document]
    split <;> rfl
  exact ⟨hnil, hms n hnil, hexc, hms⟩

/-- C8 witness: line 5 of a one-line concrete document. -/
theorem c8_witness :
    lineTokens (_tokenize_document hash0 echoLexer textAB initState).1 5 = [] ∧
    (highlightBlock hash0 echoLexer textAB 5 initState).2.1 = [] :=
  ⟨(c8_out_of_range_empty hash0 echoLexer textAB 5 (by decide) (by decide)).1,
   (c8_out_of_range_empty hash0 echoLexer textAB 5 (by decide) (by decide)).2.1⟩

/-- C9: rebuilding is a pure function of the text and the lexer stream:
two rebuilds over the same changed content from any two prior states
produce identical per-line indexes, and running the rebuild again on
its own result changes nothing. -/
theorem c9_pure_rebuild (pyHash : PyStr → Int) (lexer : Lexer) (text : PyStr)
    (st st2 : HLState)
    (h : some (pyHash text) ≠ st.lastTextHash)
    (h2 : some (pyHash text) ≠ st2.lastTextHash) :
    (_tokenize_document pyHash lexer text st).1.blockTokens
      = (_tokenize_document pyHash lexer text st2).1.blockTokens ∧
    _tokenize_document pyHash lexer text (_tokenize_document pyHash lexer text st).1
      = ((_tokenize_document pyHash lexer text st).1, none) := by
  rw [tok_dirty h, tok_dirty h2]
  exact ⟨rfl, tok_clean rfl⟩

/-- C9 witness: two different dirty states over the same text produce
the same index. -/
theorem c9_witness :
    (_tokenize_document hash0 echoLexer textAB initState).1.blockTokens
      = (_tokenize_document hash0 echoLexer textAB stAlt).1.blockTokens :=
  (c9_pure_rebuild hash0 echoLexer textAB initState stAlt
    (by simp [initState]) (by decide)).1

/-- C10: in the spec-modelled region-aware rebuild the region state is
carried line to line (each line entry state is the previous line exit
state, document start Host), each line is tokenized under the rule set
of its entry state, and on the concrete markup input the fourth line
(var x = 1;) is tokenized in the embedded-script state and produces a
Keyword token for var, lines outside the script region staying in the
Host state. -/
theorem c10_region_state_machine :
    (∀ (g : RegionGrammar) (ls : List (List Char)) (s : LexerRegionState),
      chainedFrom s (regionScanLines g ls s)) ∧
    (∀ (g : RegionGrammar) (l : List Char) (ls : List (List Char)) (s : LexerRegionState),
      regionScanLines g (l :: ls) s =
        (s, tokenizeLineRules (grammarFor g s) l, exitState g s l) ::
          regionScanLines g ls (exitState g s l)) ∧
    lineCount htmlInput = 7 ∧
    (regionScan htmlRegionGrammar htmlInput).map (fun r => r.1)
      = [LexerRegionState.Host, LexerRegionState.Host, LexerRegionState.Host,
         LexerRegionState.EmbeddedA, LexerRegionState.EmbeddedA,
         LexerRegionState.Host, LexerRegionState.Host] ∧
    ((regionScan htmlRegionGrammar htmlInput).map (fun r => r.2.1)).getD 3 []
      = [(0, 3, ["Keyword"])] :=
  ⟨fun g => chainedFrom_regionScanLines g, fun _ _ _ _ => rfl,
   by decide, by decide, by decide⟩
